import Mathlib

/-!
Verification of the probability-distribution core of this repository
(`pytorch/probability/distributions_.py`): a reimplemented Normal
distribution (`Normal_`) and a finite mixture (`MixtureSameFamily`).

Tensors are modelled shallowly as a shape (a list of dimension sizes)
together with a total element function on index lists; all shape
bookkeeping (broadcasting, permutation, axis insertion, reductions)
follows the host tensor library's documented semantics.  Randomness is
external: sampling operations take their random draws as explicit
arguments.  The external special functions `erf`/`erfinv` are taken as
parameters of the operations that use them.
-/

namespace AEM

open scoped BigOperators

/-- Error taxonomy of the spec: invalid arguments (validation) and shape
mismatches (broadcast/permute failures surfaced by the tensor engine). -/
inductive DErr
  | invalidArgument
  | shapeMismatch
deriving DecidableEq

/-- A tensor: a shape and an element function on index lists.  Only the
values at valid indices (pointwise below the shape) are meaningful. -/
structure Tensor where
  shape : List ℕ
  el : List ℕ → ℝ

/-- An index is valid for a shape when it has the same rank and is
pointwise below the dimension sizes. -/
def ValidIdx (s idx : List ℕ) : Prop := List.Forall₂ (· < ·) idx s

/-- Broadcasting of one dimension pair (NumPy-style): equal sizes pass,
a size-1 dimension stretches to the other. -/
def bcastDim (a b : ℕ) : Option ℕ :=
  if a = b then some a else if a = 1 then some b else if b = 1 then some a else none

/-- Broadcasting of two reversed shapes (aligned from the trailing axis). -/
def bcastRev : List ℕ → List ℕ → Option (List ℕ)
  | [], ys => some ys
  | x :: xs, [] => some (x :: xs)
  | x :: xs, y :: ys =>
      (bcastDim x y).bind fun d => (bcastRev xs ys).bind fun rest => some (d :: rest)

/-- NumPy-style broadcast of two shapes, right-aligned. -/
def broadcastShapes (s t : List ℕ) : Option (List ℕ) :=
  (bcastRev s.reverse t.reverse).map List.reverse

/-- Map one coordinate of a broadcast index back to the source tensor:
a stretched (size-1) axis always reads position 0. -/
def gdim (d i : ℕ) : ℕ := if d = 1 then 0 else i

/-- Map an index of the broadcast shape to an index of the source shape
`s`: keep the trailing `s.length` coordinates, reading 0 on size-1 axes. -/
def bIdx (s idx : List ℕ) : List ℕ :=
  List.zipWith gdim s (idx.drop (idx.length - s.length))

/-- Elementwise binary operation with broadcasting; fails on
incompatible shapes, as the tensor engine does. -/
noncomputable def ewise (f : ℝ → ℝ → ℝ) (t u : Tensor) : Except DErr Tensor :=
  (broadcastShapes t.shape u.shape).elim (.error .shapeMismatch) fun s =>
    .ok ⟨s, fun idx => f (t.el (bIdx t.shape idx)) (u.el (bIdx u.shape idx))⟩

/-- Elementwise unary operation (no shape change). -/
noncomputable def Tensor.map (f : ℝ → ℝ) (t : Tensor) : Tensor :=
  ⟨t.shape, fun idx => f (t.el idx)⟩

@[simp] theorem optElim_some {α β : Type} (a : α) (b : β) (f : α → β) :
    (some a).elim b f = f a := rfl

@[simp] theorem optElim_none {α β : Type} (b : β) (f : α → β) :
    (none : Option α).elim b f = b := rfl

@[simp] theorem exceptBind_ok {α β : Type} (a : α) (f : α → Except DErr β) :
    Except.bind (Except.ok a) f = f a := rfl

@[simp] theorem exceptBind_error {α β : Type} (e : DErr) (f : α → Except DErr β) :
    Except.bind (Except.error e) f = (Except.error e : Except DErr β) := rfl

@[simp] theorem bcastDim_self (a : ℕ) : bcastDim a a = some a := by
  simp [bcastDim]

@[simp] theorem bcastDim_one_left (b : ℕ) : bcastDim 1 b = some b := by
  rcases eq_or_ne b 1 with h | h <;> simp [bcastDim, h]

@[simp] theorem bcastDim_one_right (a : ℕ) : bcastDim a 1 = some a := by
  rcases eq_or_ne a 1 with h | h <;> simp [bcastDim, h]

theorem bcastRev_nil_right : ∀ xs : List ℕ, bcastRev xs [] = some xs
  | [] => rfl
  | _ :: _ => rfl

/-- Broadcasting a shape with itself gives the shape back. -/
theorem bcastRev_self : ∀ xs : List ℕ, bcastRev xs xs = some xs
  | [] => rfl
  | x :: xs => by simp [bcastRev, bcastRev_self xs]

@[simp] theorem broadcastShapes_self (s : List ℕ) : broadcastShapes s s = some s := by
  simp [broadcastShapes, bcastRev_self]

@[simp] theorem broadcastShapes_nil_left (s : List ℕ) : broadcastShapes [] s = some s := by
  simp [broadcastShapes, bcastRev]

/-- Broadcasting a trailing-axis vector `[M]` against a shape ending in
`M` is the identity on that shape. -/
theorem broadcastShapes_last (s : List ℕ) (M : ℕ) :
    broadcastShapes (s ++ [M]) [M] = some (s ++ [M]) := by
  simp [broadcastShapes, List.reverse_append, bcastRev, bcastRev_nil_right]

theorem gdim_lt {x d : ℕ} (h : x < d) : gdim d x = x := by
  unfold gdim; split <;> omega

theorem gdim_gdim (d i : ℕ) : gdim d (gdim d i) = gdim d i := by
  unfold gdim; split <;> simp

/-- On a valid index, mapping back through the tensor's own shape is the
identity. -/
theorem bIdx_self (s idx : List ℕ) (h : ValidIdx s idx) : bIdx s idx = idx := by
  unfold bIdx
  rw [h.length_eq, Nat.sub_self, List.drop_zero]
  induction h with
  | nil => rfl
  | cons hab _ ih =>
      simp only [List.zipWith_cons_cons, ih, List.cons.injEq, and_true]
      exact gdim_lt hab

/-! ### The reimplemented Normal distribution (`Normal_`) -/

/-- `Normal_`: location and scale tensors (already broadcast to a common
batch shape by construction) plus the argument-validation flag. -/
structure Normal_ where
  loc : Tensor
  scale : Tensor
  validateArgs : Bool

/-- The batch shape: `self.loc.size()` after `broadcast_all`. -/
def Normal_.batchShape (d : Normal_) : List ℕ := d.loc.shape

/-- The support constraint of `Normal_` is `constraints.real`: every real
value passes (the host framework's real constraint only rejects NaN,
which has no counterpart in `ℝ`). -/
def realSupportCheck (_ : ℝ) : Bool := true

open scoped Classical in
/-- `_validate_sample`: when validation is on, check every element of
`value` against the support constraint. -/
noncomputable def Normal_.validateSample (d : Normal_) (value : Tensor) : Except DErr Unit :=
  if d.validateArgs then
    if ∀ idx, ValidIdx value.shape idx → realSupportCheck (value.el idx) = true then .ok ()
    else .error .invalidArgument
  else .ok ()

theorem validateSample_ok (d : Normal_) (v : Tensor) : d.validateSample v = .ok () := by
  unfold Normal_.validateSample
  split
  · rw [if_pos]
    intro idx _
    rfl
  · rfl

open scoped Classical in
/-- Construction: `broadcast_all(loc, scale)`, then (framework boilerplate)
the positivity constraint on `scale` when validation is on. -/
noncomputable def Normal_.make (loc scale : Tensor) (validateArgs : Bool) : Except DErr Normal_ :=
  (broadcastShapes loc.shape scale.shape).elim (.error .shapeMismatch) fun s =>
    let L : Tensor := ⟨s, fun idx => loc.el (bIdx loc.shape idx)⟩
    let S : Tensor := ⟨s, fun idx => scale.el (bIdx scale.shape idx)⟩
    if validateArgs ∧ ¬ ∀ idx, ValidIdx s idx → 0 < S.el idx then .error .invalidArgument
    else .ok ⟨L, S, validateArgs⟩

/-- `log_prob(value)`:
`-0.5 * ((value - loc) / scale) ** 2 - scale.log() - 0.5 * log(2 * pi)`. -/
noncomputable def Normal_.log_prob (d : Normal_) (value : Tensor) : Except DErr Tensor :=
  Except.bind (d.validateSample value) fun _ =>
  Except.bind (ewise (fun v l => v - l) value d.loc) fun z =>
  Except.bind (ewise (fun a s => a / s) z d.scale) fun z2 =>
  Except.bind (ewise (fun a ls => a - ls) (z2.map fun x => -0.5 * x ^ 2) (d.scale.map Real.log))
    fun r => .ok (r.map fun x => x - 0.5 * Real.log (2 * Real.pi))

/-- `cdf(value)`: `0.5 * (1 + erf((value - loc) * scale.reciprocal() / sqrt(2)))`,
with the external `erf` passed as a parameter. -/
noncomputable def Normal_.cdf (erf : ℝ → ℝ) (d : Normal_) (value : Tensor) : Except DErr Tensor :=
  Except.bind (d.validateSample value) fun _ =>
  Except.bind (ewise (fun v l => v - l) value d.loc) fun z =>
  Except.bind (ewise (fun a s => a * s⁻¹) z d.scale) fun z2 =>
  .ok (z2.map fun x => 0.5 * (1 + erf (x / Real.sqrt 2)))

/-- `icdf(value)`: `loc + scale * erfinv(2 * value - 1) * sqrt(2)`,
with the external `erfinv` passed as a parameter. -/
noncomputable def Normal_.icdf (erfinv : ℝ → ℝ) (d : Normal_) (value : Tensor) :
    Except DErr Tensor :=
  Except.bind (d.validateSample value) fun _ =>
  Except.bind (ewise (fun s x => s * x) d.scale (value.map fun v => erfinv (2 * v - 1) * Real.sqrt 2))
    fun se => ewise (fun l x => l + x) d.loc se

/-- `entropy()`: `0.5 + 0.5 * log(2 * pi) + log(scale)`, elementwise. -/
noncomputable def Normal_.entropy (d : Normal_) : Tensor :=
  d.scale.map fun s => 0.5 + 0.5 * Real.log (2 * Real.pi) + Real.log s

/-- `rsample` with the standard-normal draw `eps` supplied explicitly
(the randomness is external): `loc + eps * scale`. -/
noncomputable def Normal_.rsampleWith (d : Normal_) (eps : Tensor) : Except DErr Tensor :=
  Except.bind (ewise (fun e s => e * s) eps d.scale) fun es =>
  ewise (fun l x => l + x) d.loc es

/-! ### `expand` -/

/-- Shape compatibility for `Tensor.expand`, right-aligned: the new shape
is at least as long, and each existing dimension is kept or stretched
from size 1. -/
def expandShapeOK (old new : List ℕ) : Bool :=
  decide (old.length ≤ new.length) &&
  (List.zip old (new.drop (new.length - old.length))).all fun p =>
    decide (p.1 = p.2) || decide (p.1 = 1)

/-- `Tensor.expand`: broadcast a tensor to a larger shape without copying;
stretched axes read their single element. -/
noncomputable def Tensor.expand (t : Tensor) (s : List ℕ) : Except DErr Tensor :=
  if expandShapeOK t.shape s then .ok ⟨s, fun idx => t.el (bIdx t.shape idx)⟩
  else .error .shapeMismatch

/-- `Normal_.expand`: expand `loc` and `scale` to the new batch shape and
carry over the validation flag without re-validating. -/
noncomputable def Normal_.expand (d : Normal_) (s : List ℕ) : Except DErr Normal_ :=
  Except.bind (d.loc.expand s) fun L =>
  Except.bind (d.scale.expand s) fun S =>
  .ok ⟨L, S, d.validateArgs⟩

/-! ### Log-sum-exp and the categorical mixture abstraction -/

/-- The numerically stable log-sum-exp of `f 0, …, f (M-1)`: subtract the
running maximum, exponentiate, sum, and shift back — the reduction the
tensor engine provides. -/
noncomputable def stableLSE (f : ℕ → ℝ) (M : ℕ) : ℝ :=
  let c := (((List.range M).map f).max?).getD 0
  c + Real.log (∑ m ∈ Finset.range M, Real.exp (f m - c))

/-- The specification-level log-sum-exp, computed directly as
`log (Σ exp)` with no stabilisation. -/
noncomputable def logSumExpSpec (M : ℕ) (f : ℕ → ℝ) : ℝ :=
  Real.log (∑ m ∈ Finset.range M, Real.exp (f m))

theorem sum_exp_pos (M : ℕ) (hM : 0 < M) (f : ℕ → ℝ) :
    0 < ∑ m ∈ Finset.range M, Real.exp (f m) :=
  Finset.sum_pos (fun m _ => Real.exp_pos (f m))
    (Finset.nonempty_range_iff.mpr hM.ne')

/-- The stabilised log-sum-exp agrees with the direct computation: the
shift by the maximum cancels. -/
theorem stableLSE_eq (f : ℕ → ℝ) (M : ℕ) (hM : 0 < M) :
    stableLSE f M = logSumExpSpec M f := by
  have key : ∀ c : ℝ, c + Real.log (∑ m ∈ Finset.range M, Real.exp (f m - c))
      = Real.log (∑ m ∈ Finset.range M, Real.exp (f m)) := by
    intro c
    have hsum : (∑ m ∈ Finset.range M, Real.exp (f m - c))
        = (∑ m ∈ Finset.range M, Real.exp (f m)) * Real.exp (-c) := by
      rw [Finset.sum_mul]
      exact Finset.sum_congr rfl fun m _ => by
        rw [Real.exp_sub, Real.exp_neg, div_eq_mul_inv]
    rw [hsum, Real.log_mul (sum_exp_pos M hM f).ne' (Real.exp_ne_zero _), Real.log_exp]
    ring
  exact key _

theorem stableLSE_congr (f g : ℕ → ℝ) (M : ℕ) (h : ∀ m, m < M → f m = g m) :
    stableLSE f M = stableLSE g M := by
  unfold stableLSE
  have hmap : (List.range M).map f = (List.range M).map g :=
    List.map_congr_left fun m hm => h m (List.mem_range.mp hm)
  rw [hmap]
  exact congrArg _ (congrArg Real.log (Finset.sum_congr rfl fun m hm => by
    rw [h m (Finset.mem_range.mp hm)]))

/-- Modelled from the spec: the categorical/mixture distribution
abstraction the mixture consumes is host-framework code absent from
`src/`; it exposes `sample(shape)` (randomness, external here) and a
`logits` accessor.  Following the host framework's convention — which the
spec's concrete two-component property (`log 0.5 + …`) relies on — the
stored `logits` are the log-normalised construction logits. -/
structure Categorical where
  M : ℕ
  rawLogits : ℕ → ℝ

/-- One normalised logit: `rawLogits m - logsumexp(rawLogits)`. -/
noncomputable def Categorical.logit (c : Categorical) (m : ℕ) : ℝ :=
  c.rawLogits m - stableLSE c.rawLogits c.M

/-- The `logits` accessor as a tensor of shape `[M]`. -/
noncomputable def Categorical.logits (c : Categorical) : Tensor :=
  ⟨[c.M], fun idx => c.logit (idx.headD 0)⟩

/-- The normalised mixture weight `π_m = softmax(l)_m`. -/
noncomputable def mixWeight (M : ℕ) (l : ℕ → ℝ) (m : ℕ) : ℝ :=
  Real.exp (l m) / ∑ j ∈ Finset.range M, Real.exp (l j)

theorem exp_logit (M : ℕ) (hM : 0 < M) (l : ℕ → ℝ) (m : ℕ) :
    Real.exp (l m - stableLSE l M) = mixWeight M l m := by
  rw [stableLSE_eq l M hM, logSumExpSpec, Real.exp_sub,
    Real.exp_log (sum_exp_pos M hM l)]
  rfl

/-! ### Axis operations used by the mixture -/

/-- `value.permute(2, 0, 1)`: requires rank exactly 3. -/
noncomputable def Tensor.permute201 (t : Tensor) : Except DErr Tensor :=
  if t.shape.length = 3 then
    .ok ⟨[t.shape.getD 2 0, t.shape.getD 0 0, t.shape.getD 1 0],
      fun idx => t.el [idx.getD 1 0, idx.getD 2 0, idx.getD 0 0]⟩
  else .error .shapeMismatch

/-- `x.permute(1, 2, 3, 0)`: requires rank exactly 4. -/
noncomputable def Tensor.permute1230 (t : Tensor) : Except DErr Tensor :=
  if t.shape.length = 4 then
    .ok ⟨[t.shape.getD 1 0, t.shape.getD 2 0, t.shape.getD 3 0, t.shape.getD 0 0],
      fun idx => t.el [idx.getD 3 0, idx.getD 0 0, idx.getD 1 0, idx.getD 2 0]⟩
  else .error .shapeMismatch

/-- `x[..., None].repeat(1, 1, 1, M)`: append a component axis of size `M`
holding `M` copies. -/
noncomputable def Tensor.repeatLast (t : Tensor) (M : ℕ) : Tensor :=
  ⟨t.shape ++ [M], fun idx => t.el idx.dropLast⟩

/-- `x[..., None]`: append a singleton trailing axis. -/
noncomputable def Tensor.unsqueezeLast (t : Tensor) : Tensor :=
  ⟨t.shape ++ [1], fun idx => t.el idx.dropLast⟩

/-- `x[:, None, ...]`: insert a singleton axis at position 1. -/
noncomputable def Tensor.unsqueeze1 (t : Tensor) : Tensor :=
  ⟨t.shape.take 1 ++ 1 :: t.shape.drop 1, fun idx => t.el (idx.take 1 ++ idx.drop 2)⟩

/-- `torch.sum(x, dim=-1)`: reduce the trailing axis. -/
noncomputable def Tensor.sumLast (t : Tensor) : Tensor :=
  ⟨t.shape.dropLast, fun idx => ∑ m ∈ Finset.range (t.shape.getLastD 0), t.el (idx ++ [m])⟩

/-- `torch.logsumexp(x, dim=-2)`: stable log-sum-exp reduction over the
second-to-last axis; requires rank at least 2. -/
noncomputable def Tensor.logsumexpDim2 (t : Tensor) : Except DErr Tensor :=
  if 2 ≤ t.shape.length then
    .ok ⟨t.shape.dropLast.dropLast ++ [t.shape.getLastD 0],
      fun idx => stableLSE (fun m => t.el (idx.dropLast ++ [m, idx.getLastD 0]))
        (t.shape.dropLast.getLastD 0)⟩
  else .error .shapeMismatch

/-! ### The mixture distribution -/

/-- `MixtureSameFamily`: a categorical mixture over the trailing batch
axis of the component distribution. -/
structure MixtureSameFamily where
  mixture_distribution : Categorical
  components_distribution : Normal_

/-- Construction (`__init__`): store the two sub-distributions and derive
batch/event shapes from the components; no cross-validation is performed. -/
def MixtureSameFamily.make (md : Categorical) (cd : Normal_) : Except DErr MixtureSameFamily :=
  .ok ⟨md, cd⟩

/-- `batch_shape`: the component distribution's batch shape. -/
def MixtureSameFamily.batchShape (m : MixtureSameFamily) : List ℕ :=
  m.components_distribution.batchShape

/-- The mask-alignment step of `sample`: a mask with exactly 3 axes gets
a singleton axis inserted at position 1 (`mask[:, None, ...]`). -/
noncomputable def maskAlign (mask : Tensor) : Tensor :=
  if mask.shape.length = 3 then mask.unsqueeze1 else mask

/-- `sample` with the two random draws supplied explicitly (the mask
drawn from the mixture distribution and the reparameterised component
samples): align the mask, multiply elementwise, and reduce-sum over the
trailing component axis. -/
noncomputable def MixtureSameFamily.sampleWith (mask compSamples : Tensor) : Except DErr Tensor :=
  Except.bind (ewise (fun a b => a * b) (maskAlign mask) compSamples) fun p =>
  .ok p.sumLast

/-- `log_prob(value)`: permute `value` to `[S, B, D]`, replicate along a
trailing component axis of size `batch_shape[-1]`, evaluate the component
log-densities, permute the component axis to second-to-last, add the
mixture logits (with a trailing singleton axis), and log-sum-exp over the
component axis. -/
noncomputable def MixtureSameFamily.log_prob (m : MixtureSameFamily) (value : Tensor) :
    Except DErr Tensor :=
  Except.bind value.permute201 fun v1 =>
  Except.bind (m.components_distribution.log_prob (v1.repeatLast (m.batchShape.getLastD 0)))
    fun lpc0 =>
  Except.bind lpc0.permute1230 fun lpc =>
  Except.bind (ewise (fun a b => a + b) m.mixture_distribution.logits.unsqueezeLast lpc)
    fun s => s.logsumexpDim2

/-! ### Scalar Gaussian density facts -/

/-- The scalar Gaussian log-density, exactly as `Normal_.log_prob`
computes it elementwise. -/
noncomputable def normalLogPdf (μ σ x : ℝ) : ℝ :=
  -0.5 * ((x - μ) / σ) ^ 2 - Real.log σ - 0.5 * Real.log (2 * Real.pi)

/-- The scalar Gaussian density in its textbook form. -/
noncomputable def normalPdf (μ σ x : ℝ) : ℝ :=
  Real.exp (-((x - μ) ^ 2) / (2 * σ ^ 2)) / (σ * Real.sqrt (2 * Real.pi))

/-- For positive scale, exponentiating the log-density recovers the
density. -/
theorem exp_normalLogPdf (μ σ x : ℝ) (hσ : 0 < σ) :
    Real.exp (normalLogPdf μ σ x) = normalPdf μ σ x := by
  have h2π : (0 : ℝ) < 2 * Real.pi := by positivity
  have hsqrt : (0 : ℝ) < Real.sqrt (2 * Real.pi) := Real.sqrt_pos.mpr h2π
  have hexp : normalLogPdf μ σ x
      = -((x - μ) ^ 2) / (2 * σ ^ 2) + -(Real.log σ) + -(Real.log (Real.sqrt (2 * Real.pi))) := by
    unfold normalLogPdf
    rw [Real.log_sqrt h2π.le, div_pow]
    field_simp
    ring
  rw [hexp, Real.exp_add, Real.exp_add, Real.exp_neg, Real.exp_neg,
    Real.exp_log hσ, Real.exp_log hsqrt, normalPdf, div_eq_mul_inv, mul_inv]
  ring

/-- A Gaussian component family over the trailing mixture axis: batch
shape `[M]` with per-component means and scales. -/
noncomputable def normalVec (M : ℕ) (μ σ : ℕ → ℝ) : Normal_ :=
  ⟨⟨[M], fun idx => μ (idx.headD 0)⟩, ⟨[M], fun idx => σ (idx.headD 0)⟩, false⟩

/-! ### C9: entropy -/

/-- C9: `entropy()` returns exactly `0.5 + 0.5*log(2π) + log(scale)`,
elementwise over the batch. -/
theorem entropy_closed_form (d : Normal_) :
    d.entropy.shape = d.scale.shape ∧
    ∀ idx, d.entropy.el idx = 0.5 + 0.5 * Real.log (2 * Real.pi) + Real.log (d.scale.el idx) :=
  ⟨rfl, fun _ => rfl⟩

/-- Witness for C9 at a concrete distribution. -/
theorem entropy_closed_form_witness :
    (Normal_.entropy ⟨⟨[], fun _ => 0⟩, ⟨[], fun _ => 1⟩, false⟩).shape = [] ∧
    ∀ idx, (Normal_.entropy ⟨⟨[], fun _ => 0⟩, ⟨[], fun _ => 1⟩, false⟩).el idx
      = 0.5 + 0.5 * Real.log (2 * Real.pi) + Real.log 1 :=
  entropy_closed_form ⟨⟨[], fun _ => 0⟩, ⟨[], fun _ => 1⟩, false⟩

/-! ### C4: the mask-alignment step of `sample` -/

/-- C4 counterexample: for a 3-axis mask of shape `[2, 3, 4]` (read as
`[sample, batch, component]` per the claim), the code inserts the
singleton at axis position 1, giving `[2, 1, 3, 4]` — not the
`[2, 3, 1, 4]` an inserted event axis under the claimed
`[sample, batch, event, component]` alignment would give. -/
theorem maskAlign_counterexample :
    (maskAlign ⟨[2, 3, 4], fun _ => 0⟩).shape = [2, 1, 3, 4] ∧
    ([2, 1, 3, 4] : List ℕ) ≠ [2, 3, 1, 4] := by
  exact ⟨rfl, by decide⟩

/-- C4 (amended): a 3-axis mask gets its singleton axis inserted at
position 1 (`mask[:, None, ...]`), giving shape `[s₀, 1, s₁, s₂]`; the
elements are carried over unchanged. -/
theorem maskAlign_rank3 (t : Tensor) (a b c : ℕ) (h : t.shape = [a, b, c]) :
    (maskAlign t).shape = [a, 1, b, c] ∧
    ∀ i x j k, (maskAlign t).el [i, x, j, k] = t.el [i, j, k] := by
  obtain ⟨s, e⟩ := t
  simp only [Tensor.shape] at h
  subst h
  exact ⟨rfl, fun i x j k => rfl⟩

/-- Witness for C4's amended statement at a concrete mask. -/
theorem maskAlign_rank3_witness :
    (maskAlign ⟨[5, 6, 7], fun _ => 2⟩).shape = [5, 1, 6, 7] ∧
    ∀ i x j k, (maskAlign ⟨[5, 6, 7], fun _ => 2⟩).el [i, x, j, k]
      = Tensor.el ⟨[5, 6, 7], fun _ => 2⟩ [i, j, k] :=
  maskAlign_rank3 ⟨[5, 6, 7], fun _ => 2⟩ 5 6 7 rfl

/-! ### C3: mixture construction performs no shape validation -/

/-- C3 counterexample: constructing a mixture whose component trailing
batch axis (2) differs from the mixture outcome count (3) succeeds — no
`ShapeMismatch` is raised at construction time. -/
theorem mixture_make_counterexample :
    MixtureSameFamily.make ⟨3, fun _ => 0⟩ (normalVec 2 (fun _ => 0) fun _ => 1)
      = Except.ok ⟨⟨3, fun _ => 0⟩, normalVec 2 (fun _ => 0) fun _ => 1⟩ := rfl

/-- C3 (amended): construction stores the two sub-distributions without
any cross-validation and always succeeds; a component-axis mismatch only
surfaces later, e.g. as the `ShapeMismatch` broadcast failure inside
`log_prob` shown here for outcome count 3 against component axis 2. -/
theorem mixture_make_no_validation (md : Categorical) (cd : Normal_) :
    MixtureSameFamily.make md cd = Except.ok ⟨md, cd⟩ ∧
    MixtureSameFamily.log_prob ⟨⟨3, fun _ => 0⟩, normalVec 2 (fun _ => 0) fun _ => 1⟩
        ⟨[1, 1, 1], fun _ => 0⟩
      = Except.error DErr.shapeMismatch := by
  constructor
  · rfl
  · rfl

/-- Witness for C3's amended statement at concrete sub-distributions. -/
theorem mixture_make_no_validation_witness :
    MixtureSameFamily.make ⟨4, fun _ => 0⟩ (normalVec 2 (fun _ => 0) fun _ => 1)
      = Except.ok ⟨⟨4, fun _ => 0⟩, normalVec 2 (fun _ => 0) fun _ => 1⟩ ∧
    MixtureSameFamily.log_prob ⟨⟨3, fun _ => 0⟩, normalVec 2 (fun _ => 0) fun _ => 1⟩
        ⟨[1, 1, 1], fun _ => 0⟩
      = Except.error DErr.shapeMismatch :=
  mixture_make_no_validation ⟨4, fun _ => 0⟩ (normalVec 2 (fun _ => 0) fun _ => 1)

/-! ### C5: mixture `sample` shape -/

/-- C5 counterexample: the claim's concrete case — mask of shape
`[10, 3, 4]` (sampleShape `(10,)`, batch `(3,)`, 4 components) and
reparameterised component samples of shape `[10, 3, 4, 2]`
(batchShape `(3,4)`, eventShape `(2,)`) — does not produce a sample of
shape `(10, 3, 2)`: the elementwise multiply fails to broadcast
(trailing axes 4 vs 2), because the code expects the component axis,
not an event axis, to be trailing. -/
theorem mixture_sample_counterexample :
    MixtureSameFamily.sampleWith ⟨[10, 3, 4], fun _ => 0⟩ ⟨[10, 3, 4, 2], fun _ => 0⟩
      = Except.error DErr.shapeMismatch := rfl

/-- C5 (amended): `sample` multiplies the aligned indicator mask with the
component samples elementwise and reduce-sums the trailing component
axis.  For a component distribution with empty event shape and batch
shape `[B, D, M]` (component axis trailing) and a 3-axis mask
`[S, D, M]`, the result has shape `sampleShape ++ batchShape[:-1]`
`= [S, B, D]`, each element the mask-weighted sum over components. -/
theorem mixture_sample_shape (S B D Mv : ℕ) (mask comp : Tensor)
    (hm : mask.shape = [S, D, Mv]) (hc : comp.shape = [S, B, D, Mv]) :
    ∃ t, MixtureSameFamily.sampleWith mask comp = Except.ok t ∧
      t.shape = [S, B, D] ∧
      ∀ s b d, s < S → b < B → d < D →
        t.el [s, b, d] = ∑ m ∈ Finset.range Mv, mask.el [s, d, m] * comp.el [s, b, d, m] := by
  obtain ⟨ms, me⟩ := mask
  obtain ⟨cs, ce⟩ := comp
  simp only [Tensor.shape] at hm hc
  subst hm; subst hc
  have hbc : broadcastShapes [S, 1, D, Mv] [S, B, D, Mv] = some [S, B, D, Mv] := by
    simp [broadcastShapes, bcastRev]
  simp only [MixtureSameFamily.sampleWith, maskAlign, Tensor.unsqueeze1, ewise,
    Tensor.shape, Tensor.el, List.length_cons, List.length_nil, if_true, hbc,
    optElim_some, exceptBind_ok, Tensor.sumLast, List.take, List.drop,
    List.cons_append, List.nil_append, List.singleton_append,
    Except.ok.injEq, reduceIte]
  refine ⟨_, rfl, rfl, ?_⟩
  intro s b d hs hb hd
  dsimp only [Tensor.el, Tensor.shape]
  refine Finset.sum_congr rfl fun m hmem => ?_
  have hmlt : m < Mv := Finset.mem_range.mp hmem
  have h1 : bIdx [S, 1, D, Mv] [s, b, d, m] = [s, 0, d, m] := by
    simp [bIdx, gdim]
    omega
  have h2 : bIdx [S, B, D, Mv] [s, b, d, m] = [s, b, d, m] := by
    simp [bIdx, gdim]
    omega
  simp only [List.cons_append, List.nil_append, h1, h2]
  rfl

/-- Witness for C5's amended statement at concrete shapes. -/
theorem mixture_sample_shape_witness :
    ∃ t, MixtureSameFamily.sampleWith ⟨[10, 3, 4], fun _ => 0⟩ ⟨[10, 2, 3, 4], fun _ => 0⟩
        = Except.ok t ∧
      t.shape = [10, 2, 3] ∧
      ∀ s b d, s < 10 → b < 2 → d < 3 →
        t.el [s, b, d] = ∑ m ∈ Finset.range 4,
          Tensor.el ⟨[10, 3, 4], fun _ => 0⟩ [s, d, m]
            * Tensor.el ⟨[10, 2, 3, 4], fun _ => 0⟩ [s, b, d, m] :=
  mixture_sample_shape 10 2 3 4 ⟨[10, 3, 4], fun _ => 0⟩ ⟨[10, 2, 3, 4], fun _ => 0⟩ rfl rfl

/-! ### C2: icdf validation and formula -/

/-- C2 counterexample: with argument validation enabled, `icdf` at the
out-of-domain value 2 (outside `(0,1)`) is NOT rejected with
`InvalidArgument` — `_validate_sample` checks `value` against the
distribution's declared support, `constraints.real`, which every real
passes (`erfinv` instantiated to a concrete function, the identity). -/
theorem icdf_counterexample :
    Normal_.icdf id ⟨⟨[], fun _ => 0⟩, ⟨[], fun _ => 1⟩, true⟩ ⟨[], fun _ => 2⟩
      ≠ Except.error DErr.invalidArgument := by
  unfold Normal_.icdf
  rw [validateSample_ok]
  simp [ewise, Tensor.map, broadcastShapes, bcastRev]

/-- C2 (amended): `icdf` validates `value` only against the support
constraint of the distribution (all reals), so it never fails with
`InvalidArgument`; for every broadcast-compatible `value` it returns
`loc + scale * erfinv(2 * value - 1) * sqrt(2)` elementwise. -/
theorem icdf_formula (erfinv : ℝ → ℝ) (d : Normal_) (value : Tensor) (s : List ℕ)
    (h1 : broadcastShapes d.scale.shape value.shape = some s)
    (h2 : broadcastShapes d.loc.shape s = some s) :
    ∃ t, d.icdf erfinv value = Except.ok t ∧ t.shape = s ∧
      ∀ idx, ValidIdx s idx →
        t.el idx = d.loc.el (bIdx d.loc.shape idx)
          + d.scale.el (bIdx d.scale.shape idx)
            * (erfinv (2 * value.el (bIdx value.shape idx) - 1) * Real.sqrt 2) := by
  simp only [Normal_.icdf, validateSample_ok, exceptBind_ok, ewise, Tensor.map,
    Tensor.shape, Tensor.el, h1, h2, optElim_some]
  refine ⟨_, rfl, rfl, ?_⟩
  intro idx hvalid
  dsimp only [Tensor.el]
  rw [bIdx_self s idx hvalid]

/-- Witness for C2's amended statement at a concrete scalar instance. -/
theorem icdf_formula_witness :
    ∃ t, Normal_.icdf id ⟨⟨[], fun _ => 0⟩, ⟨[], fun _ => 1⟩, true⟩ ⟨[], fun _ => 2⟩
        = Except.ok t ∧ t.shape = [] ∧
      ∀ idx, ValidIdx [] idx →
        t.el idx = Tensor.el ⟨[], fun _ => (0 : ℝ)⟩ (bIdx [] idx)
          + Tensor.el ⟨[], fun _ => (1 : ℝ)⟩ (bIdx [] idx)
            * (id (2 * Tensor.el ⟨[], fun _ => (2 : ℝ)⟩ (bIdx [] idx) - 1) * Real.sqrt 2) :=
  icdf_formula id ⟨⟨[], fun _ => 0⟩, ⟨[], fun _ => 1⟩, true⟩ ⟨[], fun _ => 2⟩ [] rfl rfl

/-! ### Broadcast absorption: broadcasting a result with an operand again
is the identity -/

theorem bcastDim_absorb {x y d : ℕ} (h : bcastDim x y = some d) : bcastDim d y = some d := by
  by_cases h1 : x = y
  · subst h1
    rw [bcastDim_self] at h
    obtain rfl := Option.some.inj h
    exact bcastDim_self x
  · by_cases h2 : x = 1
    · subst h2
      rw [bcastDim_one_left] at h
      obtain rfl := Option.some.inj h
      exact bcastDim_self y
    · by_cases h3 : y = 1
      · subst h3
        rw [bcastDim_one_right] at h
        obtain rfl := Option.some.inj h
        exact bcastDim_one_right x
      · rw [bcastDim, if_neg h1, if_neg h2, if_neg h3] at h
        exact absurd h (by simp)

theorem bcastRev_absorb : ∀ {xs ys zs : List ℕ},
    bcastRev xs ys = some zs → bcastRev zs ys = some zs
  | [], ys, zs, h => by
      obtain rfl := Option.some.inj h
      exact bcastRev_self ys
  | x :: xs, [], zs, h => by
      obtain rfl := Option.some.inj h
      exact bcastRev_nil_right (x :: xs)
  | x :: xs, y :: ys, zs, h => by
      rw [bcastRev] at h
      rcases hd : bcastDim x y with _ | d <;> rw [hd] at h
      · exact absurd h (by simp)
      · rcases hr : bcastRev xs ys with _ | rest <;> rw [hr] at h
        · exact absurd h (by simp)
        · obtain rfl : d :: rest = zs := by simpa using h
          rw [bcastRev, bcastDim_absorb hd, bcastRev_absorb hr]
          rfl

theorem broadcastShapes_absorb {a b s : List ℕ}
    (h : broadcastShapes a b = some s) : broadcastShapes s b = some s := by
  unfold broadcastShapes at h ⊢
  rcases hz : bcastRev a.reverse b.reverse with _ | z
  · rw [hz] at h; exact absurd h (by simp)
  · rw [hz] at h
    simp only [Option.map_some'] at h
    obtain rfl : z.reverse = s := by simpa using h
    rw [show z.reverse.reverse = z from List.reverse_reverse z]
    rw [bcastRev_absorb hz]
    rfl

/-! ### C8: `log_prob` formula -/

/-- C8: for every `Normal_` and broadcast-compatible `value`,
`log_prob(value)` is `-0.5*((value-loc)/scale)^2 - log(scale) - 0.5*log(2π)`
elementwise under broadcasting. -/
theorem log_prob_formula (d : Normal_) (value : Tensor) (s : List ℕ)
    (hs : d.scale.shape = d.loc.shape)
    (h1 : broadcastShapes value.shape d.loc.shape = some s) :
    ∃ t, d.log_prob value = Except.ok t ∧ t.shape = s ∧
      ∀ idx, ValidIdx s idx →
        t.el idx = -0.5 * ((value.el (bIdx value.shape idx) - d.loc.el (bIdx d.loc.shape idx))
            / d.scale.el (bIdx d.scale.shape idx)) ^ 2
          - Real.log (d.scale.el (bIdx d.scale.shape idx))
          - 0.5 * Real.log (2 * Real.pi) := by
  have habs : broadcastShapes s d.scale.shape = some s := by
    rw [hs]
    exact broadcastShapes_absorb h1
  simp only [Normal_.log_prob, validateSample_ok, exceptBind_ok, ewise, Tensor.map,
    Tensor.shape, Tensor.el, h1, habs, optElim_some]
  refine ⟨_, rfl, rfl, ?_⟩
  intro idx hvalid
  dsimp only [Tensor.el]
  simp only [bIdx_self s idx hvalid]

/-- Witness for C8 at a concrete scalar instance. -/
theorem log_prob_formula_witness :
    ∃ t, Normal_.log_prob ⟨⟨[], fun _ => 0⟩, ⟨[], fun _ => 1⟩, false⟩ ⟨[], fun _ => 2⟩
        = Except.ok t ∧ t.shape = [] ∧
      ∀ idx, ValidIdx [] idx →
        t.el idx = -0.5 * ((Tensor.el ⟨[], fun _ => (2 : ℝ)⟩ (bIdx [] idx)
            - Tensor.el ⟨[], fun _ => (0 : ℝ)⟩ (bIdx [] idx))
            / Tensor.el ⟨[], fun _ => (1 : ℝ)⟩ (bIdx [] idx)) ^ 2
          - Real.log (Tensor.el ⟨[], fun _ => (1 : ℝ)⟩ (bIdx [] idx))
          - 0.5 * Real.log (2 * Real.pi) :=
  log_prob_formula ⟨⟨[], fun _ => 0⟩, ⟨[], fun _ => 1⟩, false⟩ ⟨[], fun _ => 2⟩ [] rfl rfl

/-! ### C7: `expand` preserves `log_prob` at the original coordinates -/

theorem expandShapeOK_le {old new : List ℕ} (h : expandShapeOK old new = true) :
    old.length ≤ new.length := by
  unfold expandShapeOK at h
  rw [Bool.and_eq_true] at h
  exact of_decide_eq_true h.1

/-- Re-reading a broadcast-mapped index through the same source shape is
the identity: size-1 axes are already pinned to 0. -/
theorem zip_gdim_absorb {bs NS : List ℕ}
    (h : List.Forall₂ (fun o n => o = n ∨ o = 1) bs NS) :
    ∀ I : List ℕ, List.zipWith gdim bs (List.zipWith gdim NS I) = List.zipWith gdim bs I := by
  induction h with
  | nil => intro I; rfl
  | cons hon _ ih =>
      intro I
      cases I with
      | nil => rfl
      | cons i I' =>
          simp only [List.zipWith_cons_cons, ih]
          rcases hon with h' | h'
          · subst h'
            rw [gdim_gdim]
          · subst h'
            rfl

theorem bIdx_bIdx (bs idx : List ℕ) (h : bs.length ≤ idx.length) :
    bIdx bs (bIdx bs idx) = bIdx bs idx := by
  unfold bIdx
  have hlen : (List.zipWith gdim bs (idx.drop (idx.length - bs.length))).length = bs.length := by
    rw [List.length_zipWith, List.length_drop]
    omega
  rw [hlen, Nat.sub_self, List.drop_zero]
  exact zip_gdim_absorb (List.forall₂_same.mpr fun o _ => Or.inl rfl) _

/-- The shape of a fallible tensor result (`none` on failure). -/
def exShape : Except DErr Tensor → Option (List ℕ)
  | .ok t => some t.shape
  | .error _ => none

/-- An element of a fallible tensor result (0 on failure). -/
noncomputable def exEl (r : Except DErr Tensor) (idx : List ℕ) : ℝ :=
  match r with
  | .ok t => t.el idx
  | .error _ => 0

@[simp] theorem exShape_ok (t : Tensor) : exShape (.ok t) = some t.shape := rfl

@[simp] theorem exEl_ok (t : Tensor) (idx : List ℕ) : exEl (.ok t) idx = t.el idx := rfl

/-- `expand` followed by `log_prob` on the expanded instance. -/
noncomputable def expandLogProb (d : Normal_) (ns : List ℕ) (v : Tensor) : Except DErr Tensor :=
  Except.bind (d.expand ns) fun d2 => d2.log_prob v

/-- C7: `expand` to a compatible larger batch shape returns a new
instance whose `loc`/`scale` are the broadcast originals and whose
validation flag is carried over; its `log_prob` at every coordinate of
the new batch equals the source's `log_prob` at the broadcast-mapped
(original) coordinate. -/
theorem expand_preserves_log_prob (d : Normal_) (hs : d.scale.shape = d.loc.shape)
    (ns : List ℕ) (hok : expandShapeOK d.loc.shape ns = true) (x : ℝ) :
    d.expand ns = Except.ok ⟨⟨ns, fun idx => d.loc.el (bIdx d.loc.shape idx)⟩,
      ⟨ns, fun idx => d.scale.el (bIdx d.scale.shape idx)⟩, d.validateArgs⟩ ∧
    exShape (expandLogProb d ns ⟨[], fun _ => x⟩) = some ns ∧
    exShape (d.log_prob ⟨[], fun _ => x⟩) = some d.loc.shape ∧
    ∀ idx, ValidIdx ns idx →
      exEl (expandLogProb d ns ⟨[], fun _ => x⟩) idx
        = exEl (d.log_prob ⟨[], fun _ => x⟩) (bIdx d.loc.shape idx) := by
  have hok2 : expandShapeOK d.scale.shape ns = true := by rw [hs]; exact hok
  have hself : broadcastShapes d.loc.shape d.scale.shape = some d.loc.shape := by
    rw [hs]
    exact broadcastShapes_self _
  have hexp : d.expand ns = Except.ok ⟨⟨ns, fun idx => d.loc.el (bIdx d.loc.shape idx)⟩,
      ⟨ns, fun idx => d.scale.el (bIdx d.scale.shape idx)⟩, d.validateArgs⟩ := by
    simp only [Normal_.expand, Tensor.expand, hok, hok2, if_true, exceptBind_ok]
  refine ⟨hexp, ?_, ?_, ?_⟩
  · simp only [expandLogProb, hexp, exceptBind_ok, Normal_.log_prob, validateSample_ok,
      ewise, Tensor.map, Tensor.shape, Tensor.el, broadcastShapes_nil_left,
      broadcastShapes_self, optElim_some, exShape_ok]
  · simp only [Normal_.log_prob, validateSample_ok, exceptBind_ok, ewise, Tensor.map,
      Tensor.shape, Tensor.el, broadcastShapes_nil_left, hself, optElim_some, exShape_ok]
  · intro idx hvalid
    have hlen : d.loc.shape.length ≤ idx.length := by
      rw [List.Forall₂.length_eq hvalid]
      exact expandShapeOK_le hok
    simp only [expandLogProb, hexp, exceptBind_ok, Normal_.log_prob, validateSample_ok,
      ewise, Tensor.map, Tensor.shape, Tensor.el, broadcastShapes_nil_left,
      broadcastShapes_self, hself, optElim_some, exEl_ok]
    simp only [bIdx_self ns idx hvalid, hs, bIdx_bIdx d.loc.shape idx hlen]

/-- Witness for C7: expanding a one-element batch to `[2, 3]`. -/
theorem expand_preserves_log_prob_witness :
    Normal_.expand ⟨⟨[1], fun _ => 0⟩, ⟨[1], fun _ => 1⟩, true⟩ [2, 3]
      = Except.ok ⟨⟨[2, 3], fun idx => Tensor.el ⟨[1], fun _ => (0 : ℝ)⟩ (bIdx [1] idx)⟩,
        ⟨[2, 3], fun idx => Tensor.el ⟨[1], fun _ => (1 : ℝ)⟩ (bIdx [1] idx)⟩, true⟩ ∧
    exShape (expandLogProb ⟨⟨[1], fun _ => 0⟩, ⟨[1], fun _ => 1⟩, true⟩ [2, 3] ⟨[], fun _ => 5⟩)
      = some [2, 3] ∧
    exShape (Normal_.log_prob ⟨⟨[1], fun _ => 0⟩, ⟨[1], fun _ => 1⟩, true⟩ ⟨[], fun _ => 5⟩)
      = some [1] ∧
    ∀ idx, ValidIdx [2, 3] idx →
      exEl (expandLogProb ⟨⟨[1], fun _ => 0⟩, ⟨[1], fun _ => 1⟩, true⟩ [2, 3] ⟨[], fun _ => 5⟩) idx
        = exEl (Normal_.log_prob ⟨⟨[1], fun _ => 0⟩, ⟨[1], fun _ => 1⟩, true⟩ ⟨[], fun _ => 5⟩)
            (bIdx [1] idx) :=
  expand_preserves_log_prob ⟨⟨[1], fun _ => 0⟩, ⟨[1], fun _ => 1⟩, true⟩ rfl [2, 3] rfl 5

/-! ### C6: `cdf ∘ icdf = id` on `(0, 1)` -/

theorem cdf_icdf_scalar (erf erfinv : ℝ → ℝ)
    (hinv : ∀ y, -1 < y → y < 1 → erf (erfinv y) = y)
    (L sv pv : ℝ) (hsv : 0 < sv) (h0 : 0 < pv) (h1 : pv < 1) :
    0.5 * (1 + erf ((L + sv * (erfinv (2 * pv - 1) * Real.sqrt 2) - L) * sv⁻¹ / Real.sqrt 2))
      = pv := by
  have hs2 : (0 : ℝ) < Real.sqrt 2 := Real.sqrt_pos.mpr (by norm_num)
  have harg : (L + sv * (erfinv (2 * pv - 1) * Real.sqrt 2) - L) * sv⁻¹ / Real.sqrt 2
      = erfinv (2 * pv - 1) := by
    field_simp
  rw [harg, hinv (2 * pv - 1) (by linarith) (by linarith)]
  ring

/-- `icdf` followed by `cdf` on the same distribution. -/
noncomputable def cdfAfterIcdf (erf erfinv : ℝ → ℝ) (d : Normal_) (p : Tensor) :
    Except DErr Tensor :=
  Except.bind (d.icdf erfinv p) fun t1 => d.cdf erf t1

/-- C6: for every `Normal_` with positive scale and every `p` elementwise
in `(0, 1)`, `cdf(icdf(p)) = p` in exact real arithmetic, given that the
external `erf`/`erfinv` satisfy the inverse law on `(-1, 1)`. -/
theorem cdf_icdf_roundtrip (erf erfinv : ℝ → ℝ)
    (hinv : ∀ y, -1 < y → y < 1 → erf (erfinv y) = y)
    (d : Normal_) (hs : d.scale.shape = d.loc.shape)
    (hpos : ∀ idx, ValidIdx d.loc.shape idx → 0 < d.scale.el idx)
    (p : Tensor) (hp : p.shape = d.loc.shape)
    (hrange : ∀ idx, ValidIdx d.loc.shape idx → 0 < p.el idx ∧ p.el idx < 1) :
    exShape (cdfAfterIcdf erf erfinv d p) = some d.loc.shape ∧
    ∀ idx, ValidIdx d.loc.shape idx → exEl (cdfAfterIcdf erf erfinv d p) idx = p.el idx := by
  have h1 : broadcastShapes d.scale.shape p.shape = some d.loc.shape := by
    rw [hs, hp]
    exact broadcastShapes_self _
  have h2 : broadcastShapes d.loc.shape d.loc.shape = some d.loc.shape :=
    broadcastShapes_self _
  have h3 : broadcastShapes d.loc.shape d.scale.shape = some d.loc.shape := by
    rw [hs]
    exact broadcastShapes_self _
  constructor
  · simp only [cdfAfterIcdf, Normal_.icdf, Normal_.cdf, validateSample_ok, exceptBind_ok,
      ewise, Tensor.map, Tensor.shape, Tensor.el, h1, h2, h3, optElim_some, exShape_ok]
  · intro idx hvalid
    have hblen : d.loc.shape.length ≤ idx.length := le_of_eq hvalid.length_eq.symm
    simp only [cdfAfterIcdf, Normal_.icdf, Normal_.cdf, validateSample_ok, exceptBind_ok,
      ewise, Tensor.map, Tensor.shape, Tensor.el, h1, h2, h3, optElim_some, exEl_ok]
    simp only [bIdx_self d.loc.shape idx hvalid, hs, hp,
      bIdx_bIdx d.loc.shape idx hblen]
    exact cdf_icdf_scalar erf erfinv hinv (d.loc.el idx) (d.scale.el idx) (p.el idx)
      (hpos idx hvalid) (hrange idx hvalid).1 (hrange idx hvalid).2

/-- Witness for C6 at a concrete scalar instance with `erf = erfinv = id`
(a concrete model of the inverse law) and `p = 1/2`. -/
theorem cdf_icdf_roundtrip_witness :
    exShape (cdfAfterIcdf id id ⟨⟨[], fun _ => 3⟩, ⟨[], fun _ => 2⟩, false⟩ ⟨[], fun _ => 1/2⟩)
      = some [] ∧
    ∀ idx, ValidIdx [] idx →
      exEl (cdfAfterIcdf id id ⟨⟨[], fun _ => 3⟩, ⟨[], fun _ => 2⟩, false⟩ ⟨[], fun _ => 1/2⟩) idx
        = Tensor.el ⟨[], fun _ => (1/2 : ℝ)⟩ idx :=
  cdf_icdf_roundtrip id id (fun y _ _ => rfl) ⟨⟨[], fun _ => 3⟩, ⟨[], fun _ => 2⟩, false⟩ rfl
    (fun _ _ => by norm_num) ⟨[], fun _ => 1/2⟩ rfl (fun _ _ => by norm_num)

/-! ### Evaluating the mixture `log_prob` pipeline -/

/-- Full symbolic evaluation of `MixtureSameFamily.log_prob` for a
mixture of `M` Gaussian components (`normalVec`) on an arbitrary 3-axis
value: the result has the value's shape and each element is the stable
log-sum-exp, over the component axis, of the normalised mixture logits
plus the per-component Gaussian log-densities. -/
theorem mixtureVec_log_prob_eval (M a b c : ℕ) (l mu sg : ℕ → ℝ)
    (v : Tensor) (hv : v.shape = [a, b, c]) :
    exShape (MixtureSameFamily.log_prob ⟨⟨M, l⟩, normalVec M mu sg⟩ v) = some [a, b, c] ∧
    ∀ i j k, i < a → j < b → k < c →
      exEl (MixtureSameFamily.log_prob ⟨⟨M, l⟩, normalVec M mu sg⟩ v) [i, j, k]
        = stableLSE (fun m => (l m - stableLSE l M)
            + normalLogPdf (mu m) (sg m) (v.el [i, j, k])) M := by
  obtain ⟨vs, ve⟩ := v
  simp only [Tensor.shape] at hv
  subst hv
  have hb1 : broadcastShapes [c, a, b, M] [M] = some [c, a, b, M] := by
    simpa using broadcastShapes_last [c, a, b] M
  have hb2 : broadcastShapes [M, 1] [a, b, M, c] = some [a, b, M, c] := by
    simp [broadcastShapes, bcastRev]
  constructor
  · simp [MixtureSameFamily.log_prob, MixtureSameFamily.batchShape, Normal_.batchShape,
      normalVec, Tensor.permute201, Tensor.repeatLast, Tensor.permute1230,
      Tensor.unsqueezeLast, Categorical.logits, Tensor.logsumexpDim2, Normal_.log_prob,
      validateSample_ok, ewise, Tensor.map, hb1, hb2]
  · intro i j k hi hj hk
    simp [MixtureSameFamily.log_prob, MixtureSameFamily.batchShape, Normal_.batchShape,
      normalVec, Tensor.permute201, Tensor.repeatLast, Tensor.permute1230,
      Tensor.unsqueezeLast, Categorical.logits, Tensor.logsumexpDim2, Normal_.log_prob,
      validateSample_ok, ewise, Tensor.map, hb1, hb2]
    apply stableLSE_congr
    intro m hm
    have hIdA : bIdx [a, b, M, c] [i, j, m, k] = [i, j, m, k] := by
      simp [bIdx, gdim]
      omega
    have hIdB : bIdx [c, a, b, M] [k, i, j, m] = [k, i, j, m] := by
      simp [bIdx, gdim]
      omega
    have hIdC : bIdx [M, 1] [i, j, m, k] = [m, 0] := by
      simp [bIdx, gdim]
      omega
    have hIdD : bIdx [M] [k, i, j, m] = [m] := by
      simp [bIdx, gdim]
      omega
    simp [hIdA, hIdB, hIdC, hIdD, gdim_lt hi, gdim_lt hj, gdim_lt hk, gdim_lt hm,
      Categorical.logit, normalLogPdf]

/-! ### C1: the mixture log-density is a log-sum-exp of logits plus
component log-densities -/

/-- C1: for a mixture of `M` Gaussian components over the trailing axis,
`log_prob(value)` equals, elementwise, the log-sum-exp over the component
axis of the mixture's (log-normalised) logits plus the per-component
Gaussian log-densities — computed here independently as `log (Σ exp ·)` —
and therefore equals `log Σ_m π_m · p_m(value)` with `π = softmax(l)`. -/
theorem mixture_log_prob_logsumexp (M a b c : ℕ) (hM : 0 < M)
    (l mu sg : ℕ → ℝ) (hsg : ∀ m, 0 < sg m) (v : Tensor) (hv : v.shape = [a, b, c]) :
    exShape (MixtureSameFamily.log_prob ⟨⟨M, l⟩, normalVec M mu sg⟩ v) = some [a, b, c] ∧
    ∀ i j k, i < a → j < b → k < c →
      exEl (MixtureSameFamily.log_prob ⟨⟨M, l⟩, normalVec M mu sg⟩ v) [i, j, k]
          = logSumExpSpec M (fun m => Categorical.logit ⟨M, l⟩ m
              + normalLogPdf (mu m) (sg m) (v.el [i, j, k])) ∧
      exEl (MixtureSameFamily.log_prob ⟨⟨M, l⟩, normalVec M mu sg⟩ v) [i, j, k]
          = Real.log (∑ m ∈ Finset.range M,
              mixWeight M l m * normalPdf (mu m) (sg m) (v.el [i, j, k])) := by
  obtain ⟨hshape, hel⟩ := mixtureVec_log_prob_eval M a b c l mu sg v hv
  refine ⟨hshape, fun i j k hi hj hk => ?_⟩
  have h1 := hel i j k hi hj hk
  constructor
  · rw [h1, stableLSE_eq _ M hM]
    rfl
  · rw [h1, stableLSE_eq _ M hM, logSumExpSpec]
    congr 1
    refine Finset.sum_congr rfl fun m _ => ?_
    rw [Real.exp_add, exp_logit M hM l m, exp_normalLogPdf _ _ _ (hsg m)]

/-- Witness for C1: the spec's concrete case — two equally weighted
components (`logits = [0, 0]`, normalised to `log 0.5` each),
`Normal(-1, 1)` and `Normal(1, 1)`, evaluated at 0. -/
theorem mixture_log_prob_logsumexp_witness :
    exShape (MixtureSameFamily.log_prob
        ⟨⟨2, fun _ => 0⟩, normalVec 2 (fun m => if m = 0 then -1 else 1) fun _ => 1⟩
        ⟨[1, 1, 1], fun _ => 0⟩) = some [1, 1, 1] ∧
    ∀ i j k, i < 1 → j < 1 → k < 1 →
      exEl (MixtureSameFamily.log_prob
          ⟨⟨2, fun _ => 0⟩, normalVec 2 (fun m => if m = 0 then -1 else 1) fun _ => 1⟩
          ⟨[1, 1, 1], fun _ => 0⟩) [i, j, k]
          = logSumExpSpec 2 (fun m => Categorical.logit ⟨2, fun _ => 0⟩ m
              + normalLogPdf (if m = 0 then -1 else 1) 1
                  (Tensor.el ⟨[1, 1, 1], fun _ => (0 : ℝ)⟩ [i, j, k])) ∧
      exEl (MixtureSameFamily.log_prob
          ⟨⟨2, fun _ => 0⟩, normalVec 2 (fun m => if m = 0 then -1 else 1) fun _ => 1⟩
          ⟨[1, 1, 1], fun _ => 0⟩) [i, j, k]
          = Real.log (∑ m ∈ Finset.range 2,
              mixWeight 2 (fun _ => 0) m * normalPdf (if m = 0 then -1 else 1) 1
                  (Tensor.el ⟨[1, 1, 1], fun _ => (0 : ℝ)⟩ [i, j, k])) :=
  mixture_log_prob_logsumexp 2 1 1 1 (by norm_num) (fun _ => 0)
    (fun m => if m = 0 then -1 else 1) (fun _ => 1) (fun _ => one_pos)
    ⟨[1, 1, 1], fun _ => 0⟩ rfl

/-! ### C10: rank discipline of `MixtureSameFamily.log_prob` -/

/-- C10 counterexample: a 3-axis value CAN come back with a different
shape — with component batch shape `[2, 2, 2]`, a value of shape
`[1, 1, 1]` is broadcast-enlarged and `log_prob` succeeds with output
shape `[2, 2, 1] ≠ [1, 1, 1]`. -/
theorem mixture_log_prob_shape_counterexample :
    exShape (MixtureSameFamily.log_prob
        ⟨⟨2, fun _ => 0⟩, ⟨⟨[2, 2, 2], fun _ => 0⟩, ⟨[2, 2, 2], fun _ => 1⟩, false⟩⟩
        ⟨[1, 1, 1], fun _ => 0⟩)
      = some [2, 2, 1] ∧ ([2, 2, 1] : List ℕ) ≠ [1, 1, 1] :=
  ⟨rfl, by decide⟩

/-- C10 (amended): `log_prob` fails for every value whose rank is not 3
(the leading `permute(2, 0, 1)` requires exactly 3 axes); for 3-axis
values the output shape equals the input shape whenever the component
and logits broadcasts do not enlarge the value — in particular for every
mixture of `M` components over a trailing `[M]` batch axis — but not in
general (see the counterexample). -/
theorem mixture_log_prob_rank3 :
    (∀ (mx : MixtureSameFamily) (v : Tensor), v.shape.length ≠ 3 →
      mx.log_prob v = Except.error DErr.shapeMismatch) ∧
    (∀ (M a b c : ℕ) (l mu sg : ℕ → ℝ) (v : Tensor), v.shape = [a, b, c] →
      exShape (MixtureSameFamily.log_prob ⟨⟨M, l⟩, normalVec M mu sg⟩ v)
        = some v.shape) := by
  constructor
  · intro mx v hv
    unfold MixtureSameFamily.log_prob Tensor.permute201
    rw [if_neg hv]
    rfl
  · intro M a b c l mu sg v hv
    rw [hv]
    exact (mixtureVec_log_prob_eval M a b c l mu sg v hv).1

/-- Witness for C10: a rank-2 value fails; a rank-3 value on a
trailing-`[M]` mixture keeps its shape. -/
theorem mixture_log_prob_rank3_witness :
    MixtureSameFamily.log_prob
        ⟨⟨2, fun _ => 0⟩, normalVec 2 (fun _ => 0) fun _ => 1⟩ ⟨[4, 5], fun _ => 0⟩
      = Except.error DErr.shapeMismatch ∧
    exShape (MixtureSameFamily.log_prob
        ⟨⟨2, fun _ => 0⟩, normalVec 2 (fun _ => 0) fun _ => 1⟩ ⟨[4, 5, 6], fun _ => 0⟩)
      = some [4, 5, 6] :=
  ⟨mixture_log_prob_rank3.1 ⟨⟨2, fun _ => 0⟩, normalVec 2 (fun _ => 0) fun _ => 1⟩
      ⟨[4, 5], fun _ => 0⟩ (by decide),
    mixture_log_prob_rank3.2 2 4 5 6 (fun _ => 0) (fun _ => 0) (fun _ => 1)
      ⟨[4, 5, 6], fun _ => 0⟩ rfl⟩

end AEM
